import Mathlib

/-!
Shallow embedding of the universe-sim per-frame update pipeline
(src/src/main.js): the simulation clock, the orbit camera controller, the
per-body trail ring buffers, and the per-frame tick orchestration.

Scalars are modelled as rationals: the JS engine computes in binary
floating point, but the specification and the claims are stated in exact
arithmetic, and every constant of the source (0.05, 0.08, 0.005, 1.25,
50, 12000, 86400, 220, 600) is exactly representable.

External collaborators stay parameters of the embedding: the
astronomy-engine HelioVector function (a pure ephemeris that can fail for
an unknown body or an out-of-range time), and the trigonometric camera
pose derivation of updateCamera (Math.cos / Math.sin), passed in as an
abstract pose function, since no claim depends on its numeric value.
-/

namespace UniverseSim

/-- 3D vector with rational components (THREE.Vector3 as used by main.js). -/
structure Vec3 where
  x : ℚ
  y : ℚ
  z : ℚ
  deriving DecidableEq, Repr

/-- Componentwise vector addition (THREE.Vector3 add / addScaledVector). -/
def Vec3.add (a b : Vec3) : Vec3 := ⟨a.x + b.x, a.y + b.y, a.z + b.z⟩

/-- Scalar multiplication (THREE.Vector3.multiplyScalar). -/
def Vec3.smul (c : ℚ) (v : Vec3) : Vec3 := ⟨c * v.x, c * v.y, c * v.z⟩

/-- Math.min on rationals, kept executable (kernel-reducible). -/
def minQ (a b : ℚ) : ℚ := if a ≤ b then a else b

/-- Math.max on rationals, kept executable (kernel-reducible). -/
def maxQ (a b : ℚ) : ℚ := if a ≤ b then b else a

theorem minQ_eq (a b : ℚ) : minQ a b = min a b := (min_def a b).symm

theorem maxQ_eq (a b : ℚ) : maxQ a b = max a b := (max_def a b).symm

/-- The Math.max lo (Math.min hi x) clamp pattern used by main.js. -/
def clampQ (lo hi x : ℚ) : ℚ := maxQ lo (minQ hi x)

theorem clampQ_eq (lo hi x : ℚ) : clampQ lo hi x = max lo (min hi x) := by
  rw [clampQ, minQ_eq, maxQ_eq]

/-- Math.sign. -/
def signQ (x : ℚ) : ℚ := if 0 < x then 1 else if x < 0 then -1 else 0

/-- Clock advance of one frame (main.js lines 338-347). The real frame
delta d (seconds) is clamped from above only: dt = Math.min(0.05, d).
Unless paused, the simulation time (ut, in days) advances by
dt * timeScale / 86400. -/
def advTime (paused : Bool) (timeScale simTime d : ℚ) : ℚ :=
  if paused then simTime
  else simTime + (minQ (1/20) d * timeScale) / 86400

/-- Refinement comparison only; follows the spec's words, not the source:
"time ← time + clamp(realDeltaSeconds, 0, 0.05) * scale", i.e. a
two-sided clamp of the real delta to [0, 0.05]. -/
def specAdvTime (paused : Bool) (timeScale simTime d : ℚ) : ℚ :=
  if paused then simTime
  else simTime + (clampQ 0 (1/20) d * timeScale) / 86400

/-- Time-scale input handler (main.js lines 288-292): a requested scale of
exactly 0 is replaced by 1; any other value is kept. -/
def setScale (s : ℚ) : ℚ := if s = 0 then 1 else s

/-- C1, counterexample: the code clamps the frame delta from above only
(Math.min(0.05, d)); for a negative real delta d = -1 the code regresses
the simulation time while the claimed clamp(d, 0, 0.05) would leave it
unchanged. -/
theorem c1_counterexample : advTime false 600 0 (-1) ≠ specAdvTime false 600 0 (-1) := by
  norm_num [advTime, specAdvTime, clampQ, minQ, maxQ]

/-- C1 (amended): for every nonnegative real delta d, an advance step
sets the new time to the old time plus clamp(d, 0, 0.05) * scale
converted to days by dividing by 86400, and a paused advance step leaves
the simulation time unchanged for every d, negative deltas included.
(Amendment: the code applies only the upper clamp Math.min(0.05, d), so
the two-sided clamp of the claim agrees with the code only for d ≥ 0;
the pause guard skips the update for any d.) -/
theorem c1_advance_clamp (p : Bool) (ts t d : ℚ) :
    (0 ≤ d → advTime p ts t d = specAdvTime p ts t d) ∧
    advTime true ts t d = t := by
  constructor
  · intro hd
    unfold advTime specAdvTime
    cases p with
    | true => rfl
    | false =>
      have h : clampQ 0 (1/20) d = minQ (1/20) d := by
        rw [clampQ_eq, minQ_eq]
        exact max_eq_right (le_min (by norm_num) hd)
      rw [h]
  · rfl

/-- C1, witness: the amended theorem applied at delta 1 second (clamp
conjunct) and at the negative delta -3 while paused (paused conjunct),
scale 600, time 0. -/
theorem c1_witness :
    ((0:ℚ) ≤ 1 ∧ advTime false 600 0 1 = specAdvTime false 600 0 1) ∧
      advTime true 600 0 (-3) = 0 :=
  ⟨⟨by decide, (c1_advance_clamp false 600 0 1).1 (by decide)⟩,
   (c1_advance_clamp true 600 0 (-3)).2⟩

/-- C2, counterexample: with scale 600 and a real delta of 1.0 s from time
0, the code does not advance by 600 simulated seconds (600/86400 days):
the 0.05 s frame clamp limits the applied delta. -/
theorem c2_counterexample : advTime false 600 0 1 ≠ 0 + 600 / 86400 := by
  norm_num [advTime, minQ]

/-- C2 (amended): with the clock at t0, scale 600 and not paused, a single
advance step with a real delta of 1.0 second yields t0 plus 30 simulated
seconds (30/86400 days): the 0.05 s single-frame clamp reduces the
applied delta to 0.05 s and 0.05 × 600 = 30. -/
theorem c2_advance_thirty (t0 : ℚ) : advTime false 600 t0 1 = t0 + 30 / 86400 := by
  unfold advTime
  rw [minQ_eq, min_eq_left (by norm_num : (1:ℚ)/20 ≤ 1)]
  norm_num

/-- C7: a requested time scale of 0 is silently normalized to 1 (the
smallest nonzero magnitude, positive), the resulting scale is never zero
for any request, and after the normalization every unpaused advance step
with positive real delta changes the simulation time. -/
theorem c7_scale_normalized :
    setScale 0 = 1 ∧ (∀ s : ℚ, setScale s ≠ 0) ∧
    (∀ t d : ℚ, 0 < d → advTime false (setScale 0) t d ≠ t) := by
  refine ⟨by simp [setScale], ?_, ?_⟩
  · intro s
    by_cases hs : s = 0
    · simp [setScale, hs]
    · simp [setScale, hs]
  · intro t d hd
    have hmin : 0 < minQ (1/20 : ℚ) d := by
      rw [minQ_eq]; exact lt_min (by norm_num) hd
    have hpos : 0 < (minQ (1/20 : ℚ) d * 1) / 86400 := by positivity
    simp only [setScale, if_pos rfl, advTime, if_neg (by simp : ¬ (false = true))]
    exact (ne_of_lt (lt_add_of_pos_right t hpos)).symm

/-- C7, witness: the normalization theorem applied at time 0 with real
delta 1. -/
theorem c7_witness : (0:ℚ) < 1 ∧ advTime false (setScale 0) 0 1 ≠ 0 :=
  ⟨by decide, c7_scale_normalized.2.2 0 1 (by decide)⟩

/-! Orbit camera controller (main.js lines 76-134): spherical state
yaw / pitch / distance plus a pan target, mutated by pointer and wheel
gestures. The pan branch moves the target along the camera's current
right vector, a Math.cos / Math.sin derived unit vector; that vector
enters the embedding as the abstract parameter rightFn, since no claim
depends on its value. -/

/-- Camera state: the module globals yaw, pitch, distance, target. -/
structure CamState where
  yaw : ℚ
  pitch : ℚ
  distance : ℚ
  target : Vec3
  deriving DecidableEq

/-- Initial camera state (main.js lines 80-83). -/
def initCam : CamState := ⟨3/5, 7/20, 900, ⟨0, 0, 0⟩⟩

/-- One user gesture: an orbit drag delta, a pan (right-button) drag
delta, or one wheel event carrying its deltaY. -/
inductive CamOp where
  | orbit (dx dy : ℚ)
  | pan (dx dy : ℚ)
  | zoom (deltaY : ℚ)
  deriving DecidableEq

/-- The wheel handler's distance update (main.js lines 129-134):
distance *= (1 + Math.sign(deltaY) * 0.08), then clamp to [50, 12000]. -/
def zoomDist (deltaY d : ℚ) : ℚ := clampQ 50 12000 (d * (1 + signQ deltaY * (2/25)))

/-- One gesture applied to the camera state (main.js lines 106-134).
Orbit: yaw -= dx*0.005, pitch -= dy*0.005 then clamp to [-1.25, 1.25].
Pan: move target along the camera right vector (rightFn) and world up,
scaled by distance/1200. Zoom: zoomDist. -/
def applyCamOp (rightFn : CamState → Vec3) (st : CamState) : CamOp → CamState
  | CamOp.orbit dx dy =>
      { st with yaw := st.yaw - dx * (1/200),
                pitch := clampQ (-(5/4)) (5/4) (st.pitch - dy * (1/200)) }
  | CamOp.pan dx dy =>
      let panSpeed := st.distance / 1200
      let t1 := Vec3.add st.target (Vec3.smul (-dx * panSpeed) (rightFn st))
      let t2 := Vec3.add t1 (Vec3.smul (dy * panSpeed) ⟨0, 1, 0⟩)
      { st with target := t2 }
  | CamOp.zoom deltaY => { st with distance := zoomDist deltaY st.distance }

/-- A whole gesture sequence applied in order. -/
def applyOps (rightFn : CamState → Vec3) (ops : List CamOp) (st : CamState) : CamState :=
  ops.foldl (applyCamOp rightFn) st

/-- The camera invariant of the claim: pitch in [-1.25, 1.25] and
distance in [50, 12000]. -/
def camInv (st : CamState) : Prop :=
  -(5/4) ≤ st.pitch ∧ st.pitch ≤ 5/4 ∧ 50 ≤ st.distance ∧ st.distance ≤ 12000

theorem le_clampQ (lo hi x : ℚ) : lo ≤ clampQ lo hi x := by
  rw [clampQ_eq]; exact le_max_left lo (min hi x)

theorem clampQ_le (lo hi x : ℚ) (h : lo ≤ hi) : clampQ lo hi x ≤ hi := by
  rw [clampQ_eq]; exact max_le h (min_le_left hi x)

theorem camInv_applyCamOp (rightFn : CamState → Vec3) (st : CamState) (op : CamOp)
    (h : camInv st) : camInv (applyCamOp rightFn st op) := by
  obtain ⟨h1, h2, h3, h4⟩ := h
  cases op with
  | orbit dx dy =>
      exact ⟨le_clampQ _ _ _, clampQ_le _ _ _ (by norm_num), h3, h4⟩
  | pan dx dy => exact ⟨h1, h2, h3, h4⟩
  | zoom deltaY =>
      exact ⟨h1, h2, le_clampQ _ _ _, clampQ_le _ _ _ (by norm_num)⟩

theorem camInv_applyOps (rightFn : CamState → Vec3) (ops : List CamOp) :
    ∀ st : CamState, camInv st → camInv (applyOps rightFn ops st) := by
  induction ops with
  | nil => intro st h; exact h
  | cons op rest ih =>
      intro st h
      exact ih (applyCamOp rightFn st op) (camInv_applyCamOp rightFn st op h)

/-- C8: from the initial camera state (pitch 0.35, distance 900), any
sequence of orbit, pan and zoom gestures keeps pitch in [-1.25, 1.25]
and distance in [50, 12000]; moreover an orbit drag whose raw pitch
update leaves the [-1.25, 1.25] band lands exactly on the boundary
±1.25, never beyond. -/
theorem c8_camera_invariant (rightFn : CamState → Vec3) (ops : List CamOp) :
    camInv (applyOps rightFn ops initCam) ∧
    (∀ (st : CamState) (dx dy : ℚ), st.pitch - dy * (1/200) ≤ -(5/4) →
      (applyCamOp rightFn st (CamOp.orbit dx dy)).pitch = -(5/4)) ∧
    (∀ (st : CamState) (dx dy : ℚ), (5/4 : ℚ) ≤ st.pitch - dy * (1/200) →
      (applyCamOp rightFn st (CamOp.orbit dx dy)).pitch = 5/4) := by
  refine ⟨camInv_applyOps rightFn ops initCam (by norm_num [camInv, initCam]), ?_, ?_⟩
  · intro st dx dy hlow
    show clampQ (-(5/4)) (5/4) (st.pitch - dy * (1/200)) = -(5/4)
    rw [clampQ_eq, min_eq_right (hlow.trans (by norm_num)), max_eq_left hlow]
  · intro st dx dy hhigh
    show clampQ (-(5/4)) (5/4) (st.pitch - dy * (1/200)) = 5/4
    rw [clampQ_eq, min_eq_left hhigh,
      max_eq_right (by norm_num : -(5/4 : ℚ) ≤ 5/4)]

/-- C8, witness: the invariant theorem applied to a concrete gesture
sequence, plus the exact-clamp part at a drag with dy = 10000 from the
initial state. -/
theorem c8_witness :
    camInv (applyOps (fun _ => ⟨1, 0, 0⟩)
      [CamOp.orbit 3 10000, CamOp.pan 5 7, CamOp.zoom 1] initCam) ∧
    (applyCamOp (fun _ => ⟨1, 0, 0⟩) initCam (CamOp.orbit 3 10000)).pitch = -(5/4) :=
  ⟨(c8_camera_invariant (fun _ => ⟨1, 0, 0⟩)
      [CamOp.orbit 3 10000, CamOp.pan 5 7, CamOp.zoom 1]).1,
   (c8_camera_invariant (fun _ => ⟨1, 0, 0⟩) []).2.1 initCam 3 10000 (by
      show (7/20 : ℚ) - 10000 * (1/200) ≤ -(5/4)
      norm_num)⟩

/-- Iterated wheel zoom with a fixed deltaY sign (n wheel events). -/
def zoomIter (deltaY : ℚ) : ℕ → ℚ → ℚ
  | 0, d => d
  | n + 1, d => zoomIter deltaY n (zoomDist deltaY d)

theorem zoomDist_neg_eq (d : ℚ) (h0 : 0 ≤ d) (h2 : d ≤ 12000) :
    zoomDist (-1) d = max 50 (d * (23/25)) := by
  have hval : d * (1 + signQ (-1) * (2/25)) = d * (23/25) := by norm_num [signQ]
  rw [zoomDist, clampQ_eq, hval,
    min_eq_right (le_trans (mul_le_of_le_one_right h0 (by norm_num)) h2)]

theorem zoomDist_pos_eq (d : ℚ) (h1 : 50 ≤ d) :
    zoomDist 1 d = min 12000 (d * (27/25)) := by
  have hd0 : (0:ℚ) ≤ d := le_trans (by norm_num) h1
  have hval : d * (1 + signQ 1 * (2/25)) = d * (27/25) := by norm_num [signQ]
  rw [zoomDist, clampQ_eq, hval,
    max_eq_right (le_min (by norm_num)
      (le_trans h1 (le_mul_of_one_le_right hd0 (by norm_num))))]

theorem zoomIter_neg_closed :
    ∀ (n : ℕ) (d : ℚ), 50 ≤ d → d ≤ 12000 →
      zoomIter (-1) n d = max 50 (d * (23/25) ^ n) := by
  intro n
  induction n with
  | zero =>
      intro d h1 _
      simp [zoomIter, max_eq_right h1]
  | succ n ih =>
      intro d h1 h2
      have hd0 : (0:ℚ) ≤ d := le_trans (by norm_num) h1
      have hz := zoomDist_neg_eq d hd0 h2
      have hz1 : 50 ≤ zoomDist (-1) d := by rw [hz]; exact le_max_left _ _
      have hz2 : zoomDist (-1) d ≤ 12000 := by
        rw [hz]
        exact max_le (by norm_num)
          (le_trans (mul_le_of_le_one_right hd0 (by norm_num)) h2)
      show zoomIter (-1) n (zoomDist (-1) d) = _
      rw [ih (zoomDist (-1) d) hz1 hz2, hz,
        max_mul_of_nonneg _ _ (pow_nonneg (by norm_num : (0:ℚ) ≤ 23/25) n),
        ← max_assoc,
        max_eq_left (mul_le_of_le_one_right (by norm_num : (0:ℚ) ≤ 50)
          (pow_le_one₀ (by norm_num) (by norm_num))),
        show d * (23/25) * (23/25) ^ n = d * (23/25) ^ (n + 1) by ring]

theorem zoomIter_pos_closed :
    ∀ (n : ℕ) (d : ℚ), 50 ≤ d → d ≤ 12000 →
      zoomIter 1 n d = min 12000 (d * (27/25) ^ n) := by
  intro n
  induction n with
  | zero =>
      intro d _ h2
      simp [zoomIter, min_eq_right h2]
  | succ n ih =>
      intro d h1 h2
      have hd0 : (0:ℚ) ≤ d := le_trans (by norm_num) h1
      have hz := zoomDist_pos_eq d h1
      have hz1 : 50 ≤ zoomDist 1 d := by
        rw [hz]
        exact le_min (by norm_num)
          (le_trans h1 (le_mul_of_one_le_right hd0 (by norm_num)))
      have hz2 : zoomDist 1 d ≤ 12000 := by rw [hz]; exact min_le_left _ _
      show zoomIter 1 n (zoomDist 1 d) = _
      rw [ih (zoomDist 1 d) hz1 hz2, hz,
        min_mul_of_nonneg _ _ (pow_nonneg (by norm_num : (0:ℚ) ≤ 27/25) n),
        ← min_assoc,
        min_eq_left (le_mul_of_one_le_right (by norm_num : (0:ℚ) ≤ 12000)
          (one_le_pow₀ (by norm_num))),
        show d * (27/25) * (27/25) ^ n = d * (27/25) ^ (n + 1) by ring]

/-- C9, counterexample: one zoom(+1) wheel event from distance 900 gives
972 (an increase, away from 50), and forty of them give exactly 12000:
repeated zoom(+1) climbs to the upper clamp, it does not converge
downward toward 50. -/
theorem c9_counterexample :
    zoomIter 1 1 900 = 972 ∧ ¬ zoomIter 1 1 900 ≤ 900 ∧
      zoomIter 1 40 900 = 12000 := by
  have h1 : zoomIter 1 1 900 = 972 := by
    show zoomDist 1 900 = 972
    rw [zoomDist_pos_eq 900 (by norm_num)]
    norm_num
  refine ⟨h1, by rw [h1]; norm_num, ?_⟩
  rw [zoomIter_pos_closed 40 900 (by norm_num) (by norm_num)]
  apply min_eq_left
  norm_num

/-- C9 (amended): each zoom step multiplies the distance by
(1 + sign*0.08) and clamps it to [50, 12000] (the definition of
zoomDist); starting anywhere in [50, 12000], repeated zoom(-1) is
monotonically non-increasing, never drops below 50 and reaches exactly 50
after finitely many steps, while repeated zoom(+1) is monotonically
non-decreasing, never exceeds 12000 and reaches exactly 12000 after
finitely many steps. (Amendment: the directions of the two signs are
swapped relative to the claim: sign +1 grows the distance toward 12000,
sign -1 shrinks it toward 50.) -/
theorem c9_zoom_clamped (d : ℚ) (h1 : 50 ≤ d) (h2 : d ≤ 12000) :
    (∀ n, 50 ≤ zoomIter (-1) n d) ∧
    (∀ n, zoomIter (-1) (n + 1) d ≤ zoomIter (-1) n d) ∧
    (∃ N, ∀ n, N ≤ n → zoomIter (-1) n d = 50) ∧
    (∀ n, zoomIter 1 n d ≤ 12000) ∧
    (∀ n, zoomIter 1 n d ≤ zoomIter 1 (n + 1) d) ∧
    (∃ N, ∀ n, N ≤ n → zoomIter 1 n d = 12000) := by
  have hd0 : (0:ℚ) ≤ d := le_trans (by norm_num) h1
  have hdpos : (0:ℚ) < d := lt_of_lt_of_le (by norm_num) h1
  have hq0 : (0:ℚ) ≤ 23/25 := by norm_num
  refine ⟨?_, ?_, ?_, ?_, ?_, ?_⟩
  · intro n
    rw [zoomIter_neg_closed n d h1 h2]
    exact le_max_left _ _
  · intro n
    rw [zoomIter_neg_closed n d h1 h2, zoomIter_neg_closed (n + 1) d h1 h2]
    exact max_le_max le_rfl (mul_le_mul_of_nonneg_left
      (pow_le_pow_of_le_one hq0 (by norm_num) (Nat.le_succ n)) hd0)
  · obtain ⟨N, hN⟩ := exists_pow_lt_of_lt_one
      (show (0:ℚ) < 50 / d by positivity) (show (23/25:ℚ) < 1 by norm_num)
    refine ⟨N, fun n hn => ?_⟩
    rw [zoomIter_neg_closed n d h1 h2]
    apply max_eq_left
    have hchain : d * (23/25) ^ n < 50 := by
      calc d * (23/25) ^ n
          ≤ d * (23/25) ^ N :=
            mul_le_mul_of_nonneg_left (pow_le_pow_of_le_one hq0 (by norm_num) hn) hd0
        _ < d * (50 / d) := mul_lt_mul_of_pos_left hN hdpos
        _ = 50 := by field_simp
    exact le_of_lt hchain
  · intro n
    rw [zoomIter_pos_closed n d h1 h2]
    exact min_le_left _ _
  · intro n
    rw [zoomIter_pos_closed n d h1 h2, zoomIter_pos_closed (n + 1) d h1 h2]
    exact min_le_min le_rfl (mul_le_mul_of_nonneg_left
      (pow_le_pow_right₀ (by norm_num : (1:ℚ) ≤ 27/25) (Nat.le_succ n)) hd0)
  · obtain ⟨N, hN⟩ := pow_unbounded_of_one_lt (240:ℚ) (by norm_num : (1:ℚ) < 27/25)
    refine ⟨N, fun n hn => ?_⟩
    rw [zoomIter_pos_closed n d h1 h2]
    apply min_eq_left
    calc (12000:ℚ) = 50 * 240 := by norm_num
      _ ≤ 50 * (27/25) ^ N :=
          mul_le_mul_of_nonneg_left (le_of_lt hN) (by norm_num)
      _ ≤ d * (27/25) ^ N :=
          mul_le_mul_of_nonneg_right h1 (pow_nonneg (by norm_num) N)
      _ ≤ d * (27/25) ^ n :=
          mul_le_mul_of_nonneg_left
            (pow_le_pow_right₀ (by norm_num : (1:ℚ) ≤ 27/25) hn) hd0

/-- C9, witness: the amended zoom theorem applied at starting distance
900. -/
theorem c9_witness :
    (50:ℚ) ≤ 900 ∧ ∀ n, 50 ≤ zoomIter (-1) n 900 :=
  ⟨by decide, (c9_zoom_clamped 900 (by decide) (by decide)).1⟩

/-! Trail ring buffers (main.js lines 219-233, 313-318 and 357-368).
Each planet's trail owns a fixed Float32Array of maxPts = 220 positions
and a monotonic write counter: a frame writes the position at index
count % maxPts, increments count, and sets the drawn range to
[0, min(maxPts, count)) of the raw storage. The storage is modelled as a
total function from index to position; every write lands in
[0, maxPts) because the write index is always count % maxPts. -/

/-- One per-body trail ring buffer. -/
structure TrailBuffer where
  maxPts : ℕ
  storage : ℕ → Vec3
  count : ℕ

/-- One trail write (main.js lines 360-365): store the position at index
count % maxPts, then increment count. -/
def TrailBuffer.push (tb : TrailBuffer) (pos : Vec3) : TrailBuffer :=
  { tb with
    storage := fun j => if j = tb.count % tb.maxPts then pos else tb.storage j,
    count := tb.count + 1 }

/-- The drawn length, setDrawRange(0, Math.min(maxPts, count)). -/
def TrailBuffer.drawCount (tb : TrailBuffer) : ℕ := min tb.maxPts tb.count

/-- The polyline handed to the renderer: the raw storage prefix of length
drawCount, in storage index order. -/
def TrailBuffer.visibleRange (tb : TrailBuffer) : List Vec3 :=
  (List.range tb.drawCount).map tb.storage

/-- resetTrails for one buffer (main.js lines 313-318): count back to 0,
draw range to 0; the storage contents are left in place. -/
def TrailBuffer.clear (tb : TrailBuffer) : TrailBuffer := { tb with count := 0 }

/-- A sequence of pushes applied in order. -/
def pushList (tb : TrailBuffer) (ps : List Vec3) : TrailBuffer :=
  ps.foldl TrailBuffer.push tb

/-- C5: a push writes the position at storage index count % maxPts and
leaves every other index unchanged, then increments count; the visible
range is always the storage over [0, min(maxPts, count)); clear resets
count to 0 with an empty visible range; and clear followed by one push
shows exactly that one position. -/
theorem c5_ring_buffer (tb : TrailBuffer) (p : Vec3) (hC : 0 < tb.maxPts) :
    (tb.push p).storage (tb.count % tb.maxPts) = p ∧
    (∀ j, j ≠ tb.count % tb.maxPts → (tb.push p).storage j = tb.storage j) ∧
    (tb.push p).count = tb.count + 1 ∧
    tb.visibleRange = (List.range (min tb.maxPts tb.count)).map tb.storage ∧
    tb.clear.count = 0 ∧ tb.clear.visibleRange = [] ∧
    (tb.clear.push p).visibleRange = [p] := by
  refine ⟨by simp [TrailBuffer.push], ?_, rfl, rfl, rfl, ?_, ?_⟩
  · intro j hj
    simp [TrailBuffer.push, hj]
  · simp [TrailBuffer.visibleRange, TrailBuffer.drawCount, TrailBuffer.clear]
  · simp [TrailBuffer.visibleRange, TrailBuffer.drawCount, TrailBuffer.clear,
      TrailBuffer.push, Nat.min_eq_right hC, List.range_succ]

/-- Concrete buffer for the C5 witness: capacity 220, count 5. -/
def tbW : TrailBuffer := ⟨220, fun _ => ⟨0, 0, 0⟩, 5⟩

/-- C5, witness: the ring-buffer theorem applied to a concrete buffer and
push. -/
theorem c5_witness :
    0 < tbW.maxPts ∧ (tbW.clear.push ⟨1, 2, 3⟩).visibleRange = [⟨1, 2, 3⟩] :=
  ⟨by decide, (c5_ring_buffer tbW ⟨1, 2, 3⟩ (by decide)).2.2.2.2.2.2⟩

theorem pushList_count (ps : List Vec3) :
    ∀ tb : TrailBuffer, (pushList tb ps).count = tb.count + ps.length := by
  induction ps with
  | nil => intro tb; simp [pushList]
  | cons p ps ih =>
      intro tb
      show (pushList (tb.push p) ps).count = tb.count + (ps.length + 1)
      rw [ih (tb.push p)]
      simp [TrailBuffer.push]
      omega

theorem pushList_maxPts (ps : List Vec3) :
    ∀ tb : TrailBuffer, (pushList tb ps).maxPts = tb.maxPts := by
  induction ps with
  | nil => intro tb; simp [pushList]
  | cons p ps ih =>
      intro tb
      show (pushList (tb.push p) ps).maxPts = tb.maxPts
      rw [ih (tb.push p)]
      rfl

/-- After pushing ps into an empty 220-slot buffer, storage index j holds
the latest pushed element whose push index is congruent to j mod 220:
the element of ps at index j + 220 * ((ps.length - 1 - j) / 220). -/
theorem pushList_storage_220 (tb : TrailBuffer) (hC : tb.maxPts = 220)
    (h0 : tb.count = 0) :
    ∀ (ps : List Vec3) (j : ℕ), j < min 220 ps.length →
      ps[j + 220 * ((ps.length - 1 - j) / 220)]? =
        some ((pushList tb ps).storage j) := by
  intro ps
  induction ps using List.reverseRecOn with
  | nil => intro j hj; simp at hj
  | append_singleton ps p ih =>
      intro j hj
      have hfold : pushList tb (ps ++ [p]) = (pushList tb ps).push p := by
        simp [pushList, List.foldl_append]
      have hcnt : (pushList tb ps).count = ps.length := by
        rw [pushList_count]; omega
      have hmax : (pushList tb ps).maxPts = 220 := by
        rw [pushList_maxPts]; exact hC
      rw [hfold]
      simp only [List.length_append, List.length_singleton] at hj ⊢
      obtain ⟨hj220, hjN1⟩ := lt_min_iff.mp hj
      by_cases hcase : j = ps.length % 220
      · have hidx : j + 220 * ((ps.length + 1 - 1 - j) / 220) = ps.length := by
          omega
        rw [hidx, List.getElem?_append_right (le_refl ps.length)]
        simp only [Nat.sub_self, List.getElem?_cons_zero]
        congr 1
        simp [TrailBuffer.push, hcnt, hmax, hcase]
      · have hjN : j < ps.length := by omega
        have hidx : j + 220 * ((ps.length + 1 - 1 - j) / 220) =
            j + 220 * ((ps.length - 1 - j) / 220) := by
          omega
        have hlt : j + 220 * ((ps.length - 1 - j) / 220) < ps.length := by
          omega
        rw [hidx, List.getElem?_append_left hlt,
          ih j (lt_min_iff.mpr ⟨hj220, hjN⟩)]
        congr 1
        simp [TrailBuffer.push, hcnt, hmax, hcase]

/-- C4 (amended): after pushing N > 220 positions into an empty
220-capacity trail buffer, the polyline handed to the renderer has
length exactly 220 and contains the last 220 pushed positions, but in
raw storage index order — entry j is the push with index
j + 220 * ((N - 1 - j) / 220), i.e. the latest push congruent to j
mod 220 — not reordered to start at count mod 220. (Amendment: the code
draws setDrawRange(0, min(maxPts, count)) over the raw storage, so after
wraparound the polyline is not in oldest-to-newest push order.) -/
theorem c4_trail_raw_order (tb : TrailBuffer) (ps : List Vec3)
    (hC : tb.maxPts = 220) (h0 : tb.count = 0) (hN : 220 < ps.length) :
    (pushList tb ps).visibleRange.length = 220 ∧
    ∀ j, j < 220 → (pushList tb ps).visibleRange[j]? =
      ps[j + 220 * ((ps.length - 1 - j) / 220)]? := by
  have hcnt : (pushList tb ps).count = ps.length := by
    rw [pushList_count]; omega
  have hmax : (pushList tb ps).maxPts = 220 := by
    rw [pushList_maxPts]; exact hC
  have hdraw : (pushList tb ps).drawCount = 220 := by
    rw [TrailBuffer.drawCount, hcnt, hmax]
    exact Nat.min_eq_left (by omega)
  constructor
  · simp [TrailBuffer.visibleRange, hdraw]
  · intro j hj
    have hvr : (pushList tb ps).visibleRange[j]? =
        some ((pushList tb ps).storage j) := by
      simp [TrailBuffer.visibleRange, hdraw, List.getElem?_range hj]
    rw [hvr]
    exact (pushList_storage_220 tb hC h0 ps j
      (lt_min_iff.mpr ⟨hj, by omega⟩)).symm

/-- Empty 220-slot buffer for the C4 instances. -/
def tb220 : TrailBuffer := ⟨220, fun _ => ⟨0, 0, 0⟩, 0⟩

/-- 221 distinct positions to push. -/
def psC4 : List Vec3 := (List.range 221).map (fun n : ℕ => ⟨(n : ℚ), 0, 0⟩)

/-- The view the spec's words claim: the last C pushed positions in push
order (oldest-to-newest). Refinement comparison only, not from the
source. -/
def specTrailView (C : ℕ) (ps : List Vec3) : List Vec3 :=
  ps.drop (ps.length - C)

/-- C4, counterexample: pushing 221 positions into the 220-slot buffer,
the rendered polyline starts with push number 220 (the wrapped latest
write sits at storage index 0), not with push number 1 as the claimed
oldest-to-newest order would require. -/
theorem c4_counterexample :
    (pushList tb220 psC4).visibleRange ≠ specTrailView 220 psC4 := by
  intro h
  have hlen : psC4.length = 221 := by
    rw [psC4, List.length_map, List.length_range]
  have hL : (pushList tb220 psC4).visibleRange[0]? = some ⟨(220 : ℚ), 0, 0⟩ := by
    have hcnt : (pushList tb220 psC4).count = 221 := by
      rw [pushList_count, hlen]
      decide
    have hmax : (pushList tb220 psC4).maxPts = 220 := by
      rw [pushList_maxPts]
      decide
    have hdraw : (pushList tb220 psC4).drawCount = 220 := by
      rw [TrailBuffer.drawCount, hcnt, hmax]
      decide
    have hvr : (pushList tb220 psC4).visibleRange[0]? =
        some ((pushList tb220 psC4).storage 0) := by
      simp [TrailBuffer.visibleRange, hdraw,
        List.getElem?_range (by norm_num : (0:ℕ) < 220)]
    have hst := pushList_storage_220 tb220 rfl rfl psC4 0
      (by rw [hlen]; norm_num)
    rw [hlen] at hst
    norm_num at hst
    rw [hvr, ← hst, psC4, List.getElem?_map,
      List.getElem?_range (by norm_num : (220:ℕ) < 221)]
    rfl
  have hR : (specTrailView 220 psC4)[0]? = some ⟨(1 : ℚ), 0, 0⟩ := by
    rw [specTrailView, hlen]
    norm_num
    rw [psC4, List.getElem?_map,
      List.getElem?_range (by norm_num : (1:ℕ) < 221)]
    rfl
  rw [h, hR] at hL
  simp only [Option.some.injEq, Vec3.mk.injEq] at hL
  have := hL.1
  norm_num at this

/-- C4, witness: the amended raw-order theorem applied to the 221
concrete pushes. -/
theorem c4_witness :
    220 < psC4.length ∧ (pushList tb220 psC4).visibleRange.length = 220 :=
  ⟨by rw [psC4, List.length_map, List.length_range]; decide,
   (c4_trail_raw_order tb220 psC4 rfl rfl
     (by rw [psC4, List.length_map, List.length_range]; decide)).1⟩

/-! The per-frame pipeline (main.js lines 235-309 and 336-386): module
state, the per-body update loop and the tick orchestration. The external
HelioVector ephemeris enters as a parameter hv that can fail with a typed
error; the trigonometric camera pose derivation of updateCamera enters as
the abstract parameter pose. -/

/-- The typed ephemeris failure of the astronomy-engine contract. -/
inductive EphErr where
  | unknownBody
  | timeOutOfRange
  deriving DecidableEq, Repr

/-- computeHelioPos (main.js lines 190-194): query the external
HelioVector and swap the y and z axes for scene orientation. A failure of
the provider (unknown body, unsupported time) propagates. -/
def computeHelioPos (hv : ℕ → ℚ → Except EphErr Vec3) (b : ℕ) (t : ℚ) :
    Except EphErr Vec3 :=
  match hv b t with
  | Except.error e => Except.error e
  | Except.ok v => Except.ok ⟨v.x, v.z, v.y⟩

/-- Catalog indices of the 8 planets in the order of the bodies array
(main.js lines 140-149). -/
def bodyIdx : List ℕ := [0, 1, 2, 3, 4, 5, 6, 7]

/-- The module-global mutable state one frame tick reads and writes:
clock (simTime, paused, timeScale), trail visibility, selection, camera
scalars, per-body mesh positions, per-body trail buffers, the derived
camera position and the info panel content (selected index, AU vector,
sim time). -/
structure AppState where
  simTime : ℚ
  paused : Bool
  timeScale : ℚ
  showTrails : Bool
  selected : Option ℕ
  cam : CamState
  meshPos : ℕ → Vec3
  trails : ℕ → TrailBuffer
  camPos : Vec3
  info : Option (ℕ × Vec3 × ℚ)

/-- The clock advance of a tick, on the whole state. -/
def advTimeS (s : AppState) (d : ℚ) : ℚ :=
  advTime s.paused s.timeScale s.simTime d

/-- updateCamera (main.js lines 85-91): recompute the camera position
from the camera scalars; pose stands for the Math.cos / Math.sin
spherical derivation. -/
def updateCamera (pose : CamState → Vec3) (s : AppState) : AppState :=
  { s with camPos := pose s.cam }

/-- The per-body loop of tick (main.js lines 349-371): for each body in
catalog order compute its heliocentric position; on success scale AU to
scene units (times 220), store the mesh position, push the trail point
when trails are shown, and remember the selected body's AU vector. A
thrown ephemeris error aborts the loop — and with it the rest of the
frame — keeping the updates already made. -/
def runBodies (hv : ℕ → ℚ → Except EphErr Vec3) (t : ℚ) (sh : Bool)
    (selected : Option ℕ) :
    List ℕ → (ℕ → Vec3) → (ℕ → TrailBuffer) → Option Vec3 →
    ((ℕ → Vec3) × (ℕ → TrailBuffer) × Option Vec3) × Option EphErr
  | [], ms, ts, sel => ((ms, ts, sel), none)
  | i :: rest, ms, ts, sel =>
    match computeHelioPos hv i t with
    | Except.error e => ((ms, ts, sel), some e)
    | Except.ok au =>
      runBodies hv t sh selected rest
        (fun j => if j = i then Vec3.smul 220 au else ms j)
        (if sh then
          (fun j => if j = i then (ts j).push (Vec3.smul 220 au) else ts j)
         else ts)
        (if selected = some i then some au else sel)

/-- One frame tick (main.js lines 338-385): advance the clock, run the
per-body loop, then — only if no ephemeris error was thrown — update the
camera position and refresh the info panel for the current selection.
When the loop throws, the frame ends there: the partial mesh and trail
updates and the advanced time persist, but the camera and info updates
of this frame never run. -/
def tick (hv : ℕ → ℚ → Except EphErr Vec3) (pose : CamState → Vec3) (d : ℚ)
    (s : AppState) : AppState × Option EphErr :=
  let t := advTimeS s d
  match runBodies hv t s.showTrails s.selected bodyIdx s.meshPos s.trails none with
  | (st, some e) =>
      ({ s with simTime := t, meshPos := st.1, trails := st.2.1 }, some e)
  | (st, none) =>
      let s1 := updateCamera pose
        { s with simTime := t, meshPos := st.1, trails := st.2.1 }
      match s.selected, st.2.2 with
      | some i, some au => ({ s1 with info := some (i, au, t) }, none)
      | _, _ => (s1, none)

/-- Iterated frame ticks. -/
def tickN (hv : ℕ → ℚ → Except EphErr Vec3) (pose : CamState → Vec3)
    (d : ℚ) : ℕ → AppState → AppState
  | 0, s => s
  | k + 1, s => tickN hv pose d k (tick hv pose d s).1

/-- The Trails button handler (main.js lines 305-309): flip showTrails
and set each trail line's render visibility flag; the buffers (storage
and count) are untouched. -/
def toggleTrails (s : AppState) : AppState :=
  { s with showTrails := !s.showTrails }

/-- resetTrails (main.js lines 313-318): clear every trail buffer. -/
def resetTrails (s : AppState) : AppState :=
  { s with trails := fun i => (s.trails i).clear }

/-- Mesh positions after an all-success loop over the index list. -/
def msAfter (auF : ℕ → Vec3) : List ℕ → (ℕ → Vec3) → ℕ → Vec3
  | [], ms => ms
  | i :: L, ms =>
    msAfter auF L (fun j => if j = i then Vec3.smul 220 (auF i) else ms j)

/-- Trail buffers after an all-success loop over the index list. -/
def tsAfter (auF : ℕ → Vec3) (sh : Bool) :
    List ℕ → (ℕ → TrailBuffer) → ℕ → TrailBuffer
  | [], ts => ts
  | i :: L, ts =>
    tsAfter auF sh L
      (if sh then
        (fun j => if j = i then (ts j).push (Vec3.smul 220 (auF i)) else ts j)
       else ts)

/-- Selected-body AU accumulator after an all-success loop. -/
def selAfter (auF : ℕ → Vec3) (selected : Option ℕ) :
    List ℕ → Option Vec3 → Option Vec3
  | [], s0 => s0
  | i :: L, s0 =>
    selAfter auF selected L (if selected = some i then some (auF i) else s0)

theorem runBodies_append_ok (hv : ℕ → ℚ → Except EphErr Vec3) (t : ℚ)
    (sh : Bool) (selected : Option ℕ) (L1 L2 : List ℕ) :
    ∀ (ms : ℕ → Vec3) (ts : ℕ → TrailBuffer) (sel : Option Vec3)
      (ms1 : ℕ → Vec3) (ts1 : ℕ → TrailBuffer) (sel1 : Option Vec3),
      runBodies hv t sh selected L1 ms ts sel = ((ms1, ts1, sel1), none) →
      runBodies hv t sh selected (L1 ++ L2) ms ts sel =
        runBodies hv t sh selected L2 ms1 ts1 sel1 := by
  induction L1 with
  | nil =>
      intro ms ts sel ms1 ts1 sel1 h
      simp only [runBodies, Prod.mk.injEq, and_true] at h
      obtain ⟨h1, h2, h3⟩ := h
      subst h1 h2 h3
      rfl
  | cons i L1 ih =>
      intro ms ts sel ms1 ts1 sel1 h
      rcases hc : computeHelioPos hv i t with e | au
      · rw [runBodies, hc] at h
        exact absurd (congrArg Prod.snd h) (by simp)
      · rw [List.cons_append, runBodies, hc]
        rw [runBodies, hc] at h
        exact ih _ _ _ _ _ _ h

theorem runBodies_ok_eq (hv : ℕ → ℚ → Except EphErr Vec3) (t : ℚ)
    (sh : Bool) (selected : Option ℕ) (auF : ℕ → Vec3) (L : List ℕ) :
    ∀ (ms : ℕ → Vec3) (ts : ℕ → TrailBuffer) (sel : Option Vec3),
      (∀ j ∈ L, computeHelioPos hv j t = Except.ok (auF j)) →
      runBodies hv t sh selected L ms ts sel =
        ((msAfter auF L ms, tsAfter auF sh L ts, selAfter auF selected L sel),
          none) := by
  induction L with
  | nil => intro ms ts sel _; rfl
  | cons i L ih =>
      intro ms ts sel hok
      rw [runBodies, hok i (List.mem_cons_self i L)]
      exact ih _ _ _ (fun j hj => hok j (List.mem_cons_of_mem i hj))

theorem msAfter_apply (auF : ℕ → Vec3) (L : List ℕ) :
    ∀ (ms : ℕ → Vec3) (j : ℕ), L.Nodup →
      msAfter auF L ms j = if j ∈ L then Vec3.smul 220 (auF j) else ms j := by
  induction L with
  | nil => intro ms j _; simp [msAfter]
  | cons i L ih =>
      intro ms j hnd
      obtain ⟨hni, hnd'⟩ := List.nodup_cons.mp hnd
      rw [msAfter, ih _ j hnd']
      by_cases hm : j ∈ L
      · simp [hm, List.mem_cons_of_mem i hm]
      · by_cases hji : j = i
        · subst hji
          simp [hm, hni]
        · simp [hm, hji]

theorem tsAfter_apply_true (auF : ℕ → Vec3) (L : List ℕ) :
    ∀ (ts : ℕ → TrailBuffer) (j : ℕ), L.Nodup →
      tsAfter auF true L ts j =
        if j ∈ L then (ts j).push (Vec3.smul 220 (auF j)) else ts j := by
  induction L with
  | nil => intro ts j _; simp [tsAfter]
  | cons i L ih =>
      intro ts j hnd
      obtain ⟨hni, hnd'⟩ := List.nodup_cons.mp hnd
      rw [tsAfter, if_pos rfl, ih _ j hnd']
      by_cases hm : j ∈ L
      · have hji : j ≠ i := fun h => hni (h ▸ hm)
        simp [hm, hji, List.mem_cons_of_mem i hm]
      · by_cases hji : j = i
        · subst hji
          simp [hm, hni]
        · simp [hm, hji]

theorem tsAfter_false (auF : ℕ → Vec3) (L : List ℕ) :
    ∀ ts : ℕ → TrailBuffer, tsAfter auF false L ts = ts := by
  induction L with
  | nil => intro ts; rfl
  | cons i L ih =>
      intro ts
      rw [tsAfter, if_neg (by simp)]
      exact ih ts

/-- Splitting the catalog order at an arbitrary body index. -/
theorem bodyIdx_split (k : ℕ) (hk : k < 8) :
    bodyIdx = List.range k ++
      k :: ((List.range (7 - k)).map (fun m => k + 1 + m)) := by
  interval_cases k <;> decide

/-- Shape of one tick when every ephemeris query of the frame succeeds. -/
theorem tick_ok (hv : ℕ → ℚ → Except EphErr Vec3) (auF : ℕ → Vec3)
    (pose : CamState → Vec3) (d : ℚ) (s : AppState)
    (hok : ∀ j ∈ bodyIdx,
      computeHelioPos hv j (advTimeS s d) = Except.ok (auF j)) :
    (tick hv pose d s).2 = none ∧
    (tick hv pose d s).1.simTime = advTimeS s d ∧
    (tick hv pose d s).1.paused = s.paused ∧
    (tick hv pose d s).1.timeScale = s.timeScale ∧
    (tick hv pose d s).1.showTrails = s.showTrails ∧
    (tick hv pose d s).1.selected = s.selected ∧
    (tick hv pose d s).1.cam = s.cam ∧
    (tick hv pose d s).1.meshPos = msAfter auF bodyIdx s.meshPos ∧
    (tick hv pose d s).1.trails = tsAfter auF s.showTrails bodyIdx s.trails ∧
    (tick hv pose d s).1.camPos = pose s.cam := by
  have hrun := runBodies_ok_eq hv (advTimeS s d) s.showTrails s.selected auF
    bodyIdx s.meshPos s.trails none hok
  rcases hsel : s.selected with _ | i
  · rw [hsel] at hrun
    simp [tick, hrun, hsel, updateCamera]
  · rw [hsel] at hrun
    rcases hsau : selAfter auF (some i) bodyIdx none with _ | au
    · simp [tick, hrun, hsel, hsau, updateCamera]
    · simp [tick, hrun, hsel, hsau, updateCamera]

/-- C3 (amended): when the ephemeris query throws for the body at catalog
position k of a frame, the whole frame aborts at that body: the bodies
before k keep their completed mesh (and, with trails shown, trail)
updates and the advanced time persists, but the failing body and every
later body keep their previous mesh position and trail, and the camera
and selection (info panel) updates of that frame are skipped entirely.
(Amendment: the loop body has no error isolation — the claim's per-body
skip-and-continue does not happen; one failure ends the frame.) -/
theorem c3_frame_abort (hv : ℕ → ℚ → Except EphErr Vec3) (auF : ℕ → Vec3)
    (pose : CamState → Vec3) (d : ℚ) (s : AppState) (k : ℕ) (e : EphErr)
    (hk : k < 8)
    (hfail : computeHelioPos hv k (advTimeS s d) = Except.error e)
    (hok : ∀ j, j < k →
      computeHelioPos hv j (advTimeS s d) = Except.ok (auF j)) :
    (tick hv pose d s).2 = some e ∧
    (tick hv pose d s).1.simTime = advTimeS s d ∧
    (∀ j, j < k → (tick hv pose d s).1.meshPos j = Vec3.smul 220 (auF j)) ∧
    (∀ j, k ≤ j → (tick hv pose d s).1.meshPos j = s.meshPos j) ∧
    (∀ j, k ≤ j → (tick hv pose d s).1.trails j = s.trails j) ∧
    (s.showTrails = true → ∀ j, j < k →
      (tick hv pose d s).1.trails j = (s.trails j).push (Vec3.smul 220 (auF j))) ∧
    (tick hv pose d s).1.camPos = s.camPos ∧
    (tick hv pose d s).1.info = s.info := by
  have hok' : ∀ j ∈ List.range k,
      computeHelioPos hv j (advTimeS s d) = Except.ok (auF j) :=
    fun j hj => hok j (List.mem_range.mp hj)
  have hpre := runBodies_ok_eq hv (advTimeS s d) s.showTrails s.selected auF
    (List.range k) s.meshPos s.trails none hok'
  have happ := runBodies_append_ok hv (advTimeS s d) s.showTrails s.selected
    (List.range k) (k :: ((List.range (7 - k)).map (fun m => k + 1 + m)))
    s.meshPos s.trails none _ _ _ hpre
  have hrun : runBodies hv (advTimeS s d) s.showTrails s.selected bodyIdx
      s.meshPos s.trails none =
      ((msAfter auF (List.range k) s.meshPos,
        tsAfter auF s.showTrails (List.range k) s.trails,
        selAfter auF s.selected (List.range k) none), some e) := by
    rw [bodyIdx_split k hk, happ, runBodies, hfail]
  refine ⟨by simp [tick, hrun], by simp [tick, hrun], ?_, ?_, ?_, ?_,
    by simp [tick, hrun], by simp [tick, hrun]⟩
  · intro j hj
    simp only [tick, hrun]
    rw [msAfter_apply auF (List.range k) s.meshPos j (List.nodup_range k),
      if_pos (List.mem_range.mpr hj)]
  · intro j hj
    simp only [tick, hrun]
    rw [msAfter_apply auF (List.range k) s.meshPos j (List.nodup_range k),
      if_neg (by simp [List.mem_range]; omega)]
  · intro j hj
    simp only [tick, hrun]
    cases hsh : s.showTrails with
    | false => rw [tsAfter_false]
    | true =>
        rw [tsAfter_apply_true auF (List.range k) s.trails j (List.nodup_range k),
          if_neg (by simp [List.mem_range]; omega)]
  · intro hsh j hj
    simp only [tick, hrun]
    rw [hsh, tsAfter_apply_true auF (List.range k) s.trails j (List.nodup_range k),
      if_pos (List.mem_range.mpr hj)]

/-- Ephemeris stub failing exactly for the first catalog body. -/
def ephFail0 : ℕ → ℚ → Except EphErr Vec3 :=
  fun i _ => if i = 0 then Except.error EphErr.unknownBody
    else Except.ok ⟨1, 0, 0⟩

/-- A concrete camera pose derivation for the counterexample. -/
def pose5 : CamState → Vec3 := fun _ => ⟨5, 5, 5⟩

/-- Concrete app state for the C3 counterexample. -/
def sC3 : AppState :=
  { simTime := 0, paused := false, timeScale := 600, showTrails := true,
    selected := some 7, cam := initCam,
    meshPos := fun _ => ⟨9, 9, 9⟩,
    trails := fun _ => ⟨220, fun _ => ⟨0, 0, 0⟩, 0⟩,
    camPos := ⟨0, 0, 0⟩, info := none }

/-- C3, counterexample: with the ephemeris failing for body 0, the claim
requires body 1's mesh and trail updates and the camera update of the
frame to complete; the code instead leaves body 1's mesh at its old
position ⟨9,9,9⟩, its trail count at 0, the camera position and the info
panel untouched. -/
theorem c3_counterexample :
    (tick ephFail0 pose5 1 sC3).2 = some EphErr.unknownBody ∧
    (tick ephFail0 pose5 1 sC3).1.meshPos 1 = ⟨9, 9, 9⟩ ∧
    ((tick ephFail0 pose5 1 sC3).1.trails 1).count = 0 ∧
    (tick ephFail0 pose5 1 sC3).1.camPos = ⟨0, 0, 0⟩ ∧
    (tick ephFail0 pose5 1 sC3).1.info = none := by
  have hrun : runBodies ephFail0 (advTimeS sC3 1) sC3.showTrails sC3.selected
      bodyIdx sC3.meshPos sC3.trails none =
      ((sC3.meshPos, sC3.trails, none), some EphErr.unknownBody) := by
    simp [bodyIdx, runBodies, computeHelioPos, ephFail0]
  simp only [tick, hrun]
  refine ⟨?_, ?_, ?_, ?_, ?_⟩ <;> trivial

/-- C3, witness: the amended frame-abort theorem applied to the concrete
failing ephemeris at k = 0. -/
theorem c3_witness :
    (0 : ℕ) < 8 ∧ (tick ephFail0 pose5 1 sC3).2 = some EphErr.unknownBody :=
  ⟨by decide,
   (c3_frame_abort ephFail0 (fun _ => ⟨0, 0, 0⟩) pose5 1 sC3 0
      EphErr.unknownBody (by decide) rfl
      (fun j hj => absurd hj (Nat.not_lt_zero j))).1⟩

theorem runBodies_trails_false (hv : ℕ → ℚ → Except EphErr Vec3) (t : ℚ)
    (selected : Option ℕ) :
    ∀ (L : List ℕ) (ms : ℕ → Vec3) (ts : ℕ → TrailBuffer) (sel : Option Vec3),
      (runBodies hv t false selected L ms ts sel).1.2.1 = ts := by
  intro L
  induction L with
  | nil => intro ms ts sel; rfl
  | cons i L ih =>
      intro ms ts sel
      rcases hc : computeHelioPos hv i t with e | au
      · simp [runBodies, hc]
      · simp only [runBodies, hc]
        exact ih _ _ _

/-- With trails hidden, a frame tick returns the trail map unchanged,
whatever the ephemeris does. -/
theorem tick_trails_hidden (hv : ℕ → ℚ → Except EphErr Vec3)
    (pose : CamState → Vec3) (d : ℚ) (s : AppState)
    (hsh : s.showTrails = false) :
    (tick hv pose d s).1.trails = s.trails := by
  have key := runBodies_trails_false hv (advTimeS s d) s.selected bodyIdx
    s.meshPos s.trails none
  simp only [tick, hsh]
  rcases hr : runBodies hv (advTimeS s d) false s.selected bodyIdx
      s.meshPos s.trails none with ⟨⟨ms', ts', sel'⟩, err⟩
  rw [hr] at key
  simp only at key
  rcases err with _ | e
  · rcases s.selected with _ | i <;> rcases sel' with _ | au <;>
      simp [updateCamera, key]
  · simp [key]

/-- C6 (amended): toggling trail visibility never clears or modifies any
trail buffer's stored positions or count; however, while trails are
hidden, frame ticks do not push at all — the per-body push is guarded by
showTrails, so the buffers stay exactly as they were — and only frames
with trails shown push the body's current position, incrementing count.
Re-enabling therefore shows the trail as it was when hidden and resumes
recording from there, with a gap for the hidden period. (Amendment: the
claim's continued accumulation while hidden does not happen.) -/
theorem c6_toggle_keeps_data (hv : ℕ → ℚ → Except EphErr Vec3)
    (auF : ℕ → Vec3) (pose : CamState → Vec3) (d : ℚ) (s : AppState)
    (hok : ∀ j ∈ bodyIdx,
      computeHelioPos hv j (advTimeS s d) = Except.ok (auF j)) :
    (toggleTrails s).trails = s.trails ∧
    (toggleTrails s).showTrails = !s.showTrails ∧
    (s.showTrails = false → (tick hv pose d s).1.trails = s.trails) ∧
    (s.showTrails = true → ∀ i ∈ bodyIdx,
      (tick hv pose d s).1.trails i =
        (s.trails i).push (Vec3.smul 220 (auF i)) ∧
      ((tick hv pose d s).1.trails i).count = (s.trails i).count + 1) := by
  refine ⟨rfl, rfl, fun hsh => tick_trails_hidden hv pose d s hsh,
    fun hsh i hi => ?_⟩
  have htr := (tick_ok hv auF pose d s hok).2.2.2.2.2.2.2.2.1
  rw [hsh] at htr
  have hti : (tick hv pose d s).1.trails i =
      (s.trails i).push (Vec3.smul 220 (auF i)) := by
    rw [htr, tsAfter_apply_true auF bodyIdx s.trails i (by decide), if_pos hi]
  exact ⟨hti, by rw [hti]; rfl⟩

/-- Ephemeris stub succeeding everywhere with a fixed vector. -/
def ephOk1 : ℕ → ℚ → Except EphErr Vec3 := fun _ _ => Except.ok ⟨1, 2, 3⟩

/-- Concrete app state for the C6 instances: trails hidden, each buffer
already holding 7 recorded points. -/
def sC6 : AppState :=
  { simTime := 0, paused := false, timeScale := 600, showTrails := false,
    selected := none, cam := initCam,
    meshPos := fun _ => ⟨0, 0, 0⟩,
    trails := fun _ => ⟨220, fun _ => ⟨0, 0, 0⟩, 7⟩,
    camPos := ⟨0, 0, 0⟩, info := none }

/-- C6, counterexample: with trails hidden, a tick leaves body 0's trail
count at 7 — the claim's "each frame's push still accumulates,
incrementing count" (which would give 8) does not happen. -/
theorem c6_counterexample :
    ((tick ephOk1 pose5 1 sC6).1.trails 0).count = 7 ∧
    ((tick ephOk1 pose5 1 sC6).1.trails 0).count ≠ (sC6.trails 0).count + 1 := by
  have h := tick_trails_hidden ephOk1 pose5 1 sC6 rfl
  rw [h]
  exact ⟨rfl, by decide⟩

/-- C6, witness: the amended theorem applied to the concrete hidden-trail
state — one tick leaves the trail map untouched. -/
theorem c6_witness :
    sC6.showTrails = false ∧ (tick ephOk1 pose5 1 sC6).1.trails = sC6.trails :=
  ⟨rfl, (c6_toggle_keeps_data ephOk1 (fun _ => ⟨1, 3, 2⟩) pose5 1 sC6
    (fun _ _ => rfl)).2.2.1 rfl⟩

/-- k pushes of the same position. -/
def pushRep (tb : TrailBuffer) (v : Vec3) : ℕ → TrailBuffer
  | 0 => tb
  | k + 1 => (pushRep tb v k).push v

theorem pushRep_count (tb : TrailBuffer) (v : Vec3) :
    ∀ k : ℕ, (pushRep tb v k).count = tb.count + k := by
  intro k
  induction k with
  | zero => rfl
  | succ k ih =>
      show ((pushRep tb v k).push v).count = tb.count + (k + 1)
      rw [TrailBuffer.push]
      simp only
      omega

theorem pushRep_maxPts (tb : TrailBuffer) (v : Vec3) :
    ∀ k : ℕ, (pushRep tb v k).maxPts = tb.maxPts := by
  intro k
  induction k with
  | zero => rfl
  | succ k ih =>
      show ((pushRep tb v k).push v).maxPts = tb.maxPts
      rw [TrailBuffer.push]
      exact ih

theorem pushRep_push_comm (tb : TrailBuffer) (v : Vec3) :
    ∀ k : ℕ, pushRep (tb.push v) v k = (pushRep tb v k).push v := by
  intro k
  induction k with
  | zero => rfl
  | succ k ih =>
      show (pushRep (tb.push v) v k).push v = ((pushRep tb v k).push v).push v
      rw [ih]

theorem pushRep_storage_mem (tb : TrailBuffer) (v : Vec3)
    (hC : tb.maxPts = 220) :
    ∀ (k j : ℕ), (∃ m, m < k ∧ (tb.count + m) % 220 = j) →
      (pushRep tb v k).storage j = v := by
  intro k
  induction k with
  | zero =>
      intro j hm
      obtain ⟨m, hm, -⟩ := hm
      omega
  | succ k ih =>
      intro j hm
      obtain ⟨m, hmk, hj⟩ := hm
      have hcnt : (pushRep tb v k).count = tb.count + k := pushRep_count tb v k
      have hmax : (pushRep tb v k).maxPts = 220 := by
        rw [pushRep_maxPts]; exact hC
      show ((pushRep tb v k).push v).storage j = v
      rw [TrailBuffer.push]
      simp only [hcnt, hmax]
      by_cases hcase : j = (tb.count + k) % 220
      · rw [if_pos hcase]
      · rw [if_neg hcase]
        exact ih j ⟨m, by omega, hj⟩

/-- After at least 220 pushes of the same position into a 220-slot
buffer, every slot holds that position. -/
theorem pushRep_storage_all (tb : TrailBuffer) (v : Vec3)
    (hC : tb.maxPts = 220) (k : ℕ) (hk : 220 ≤ k) :
    ∀ j, j < 220 → (pushRep tb v k).storage j = v := by
  intro j hj
  refine pushRep_storage_mem tb v hC k j
    ⟨(220 + j - tb.count % 220) % 220, by omega, by omega⟩

/-- Frame ticks while paused with trails shown: the sim time never moves
and each of the 8 trails receives one push of its (fixed) current
position per frame. -/
theorem tickN_paused (hv : ℕ → ℚ → Except EphErr Vec3) (auF : ℕ → Vec3)
    (pose : CamState → Vec3) (d : ℚ) :
    ∀ (k : ℕ) (s : AppState),
      (∀ j ∈ bodyIdx, computeHelioPos hv j s.simTime = Except.ok (auF j)) →
      s.paused = true → s.showTrails = true →
      (tickN hv pose d k s).simTime = s.simTime ∧
      (∀ i ∈ bodyIdx, (tickN hv pose d k s).trails i =
        pushRep (s.trails i) (Vec3.smul 220 (auF i)) k) := by
  intro k
  induction k with
  | zero => intro s _ _ _; exact ⟨rfl, fun i _ => rfl⟩
  | succ k ih =>
      intro s hok hp hsh
      have hadv : advTimeS s d = s.simTime := by
        simp [advTimeS, advTime, hp]
      have hok' : ∀ j ∈ bodyIdx,
          computeHelioPos hv j (advTimeS s d) = Except.ok (auF j) := by
        rw [hadv]; exact hok
      have ht := tick_ok hv auF pose d s hok'
      obtain ⟨-, htime, hpaused, -, hshow, -, -, -, htrails, -⟩ := ht
      have hok2 : ∀ j ∈ bodyIdx,
          computeHelioPos hv j (tick hv pose d s).1.simTime =
            Except.ok (auF j) := by
        rw [htime, hadv]; exact hok
      have hstep := ih (tick hv pose d s).1 hok2
        (by rw [hpaused]; exact hp) (by rw [hshow]; exact hsh)
      constructor
      · show (tickN hv pose d k (tick hv pose d s).1).simTime = s.simTime
        rw [hstep.1, htime, hadv]
      · intro i hi
        show (tickN hv pose d k (tick hv pose d s).1).trails i = _
        rw [hstep.2 i hi, htrails, hsh,
          tsAfter_apply_true auF bodyIdx s.trails i (by decide), if_pos hi,
          pushRep_push_comm]
        rfl

/-- C10: while the clock is paused with trails shown (and the ephemeris
succeeding), every frame tick still queries each body at the unchanged
simulation time and pushes the resulting (fixed) scene position into
that body's trail, incrementing count by one per frame; hence after any
k ≥ 220 paused frames each body's visible trail is exactly 220 copies of
its current position — the previously recorded trail is overwritten. -/
theorem c10_paused_overwrite (hv : ℕ → ℚ → Except EphErr Vec3)
    (auF : ℕ → Vec3) (pose : CamState → Vec3) (d : ℚ) (s : AppState) (k : ℕ)
    (hok : ∀ j ∈ bodyIdx, computeHelioPos hv j s.simTime = Except.ok (auF j))
    (hp : s.paused = true) (hsh : s.showTrails = true)
    (htr : ∀ i ∈ bodyIdx, (s.trails i).maxPts = 220)
    (hk : 220 ≤ k) :
    (tickN hv pose d k s).simTime = s.simTime ∧
    (∀ i ∈ bodyIdx, ((tickN hv pose d k s).trails i).count =
      (s.trails i).count + k) ∧
    (∀ i ∈ bodyIdx, ((tickN hv pose d k s).trails i).visibleRange =
      List.replicate 220 (Vec3.smul 220 (auF i))) := by
  obtain ⟨htime, htrails⟩ := tickN_paused hv auF pose d k s hok hp hsh
  refine ⟨htime, ?_, ?_⟩
  · intro i hi
    rw [htrails i hi, pushRep_count]
  · intro i hi
    rw [htrails i hi]
    have hmax : (pushRep (s.trails i) (Vec3.smul 220 (auF i)) k).maxPts = 220 := by
      rw [pushRep_maxPts]; exact htr i hi
    have hcnt : (pushRep (s.trails i) (Vec3.smul 220 (auF i)) k).count =
        (s.trails i).count + k := pushRep_count _ _ k
    have hdraw : (pushRep (s.trails i) (Vec3.smul 220 (auF i)) k).drawCount = 220 := by
      rw [TrailBuffer.drawCount, hmax, hcnt]
      exact Nat.min_eq_left (by omega)
    rw [TrailBuffer.visibleRange, hdraw]
    rw [List.eq_replicate_iff]
    constructor
    · rw [List.length_map, List.length_range]
    · intro b hb
      obtain ⟨j, hj, hjb⟩ := List.mem_map.mp hb
      rw [← hjb]
      exact pushRep_storage_all (s.trails i) (Vec3.smul 220 (auF i))
        (htr i hi) k hk j (List.mem_range.mp hj)

/-- Concrete paused state for the C10 witness. -/
def sC10 : AppState :=
  { simTime := 0, paused := true, timeScale := 600, showTrails := true,
    selected := none, cam := initCam,
    meshPos := fun _ => ⟨0, 0, 0⟩,
    trails := fun _ => ⟨220, fun _ => ⟨0, 0, 0⟩, 3⟩,
    camPos := ⟨0, 0, 0⟩, info := none }

/-- C10, witness: the paused-overwrite theorem applied to a concrete
paused state for 220 frames. -/
theorem c10_witness :
    (220 : ℕ) ≤ 220 ∧ (tickN ephOk1 pose5 1 220 sC10).simTime = sC10.simTime :=
  ⟨by decide,
   (c10_paused_overwrite ephOk1 (fun _ => ⟨1, 3, 2⟩) pose5 1 sC10 220
      (fun _ _ => rfl) rfl rfl (fun _ _ => rfl) (by decide)).1⟩

end UniverseSim
